import Mathlib

/-!
Verification development for the graphagent workflow engine
(src/src/core.ts, src/src/utils.ts, src/src/constants.ts, src/src/types.ts).

The development has two layers.

Value layer: JavaScript runtime values are modelled by the inductive
type JVal; plain objects are association lists in insertion order, the
way a JS engine exposes Object.entries. Operations mirror the source:
objGet is property lookup, objSet is property assignment on an object
(overwrite in place keeping the key position, or append a new key),
spread2 is the object spread that merges a second object over a first.

Heap layer: claims about aliasing and in-place mutation need object
identity, so a second model gives every object an address in a heap;
HVal is a JS value whose object component is a reference. deepCopyVal
models the JSON round trip used by utils.deepCopy, and the node, fork
and merge functions from core.ts are transcribed over this heap.
-/

/-- A JavaScript value at the value level: primitives plus plain
objects given as association lists of fields in insertion order. -/
inductive JVal where
  | vStr : String → JVal
  | vNum : Int → JVal
  | vBool : Bool → JVal
  | vNull : JVal
  | vObj : List (String × JVal) → JVal

/-- Fields of a value-level object. -/
abbrev JObj := List (String × JVal)

/-- Property read on an association list object: the first field with the
given name, matching JS property lookup (objects carry no duplicate keys). -/
def objGet (o : List (String × α)) (k : String) : Option α :=
  (o.find? (fun p => p.1 == k)).map Prod.snd

/-- Property assignment `o[k] = v` on a JS object: when the key exists its
value is overwritten in place (the key keeps its position), otherwise
the key is appended.  This is also the effect of adding the field `k`
in a spread literal. -/
def objSet : List (String × α) → String → α → List (String × α)
  | [], k, v => [(k, v)]
  | p :: rest, k, v => if p.1 == k then (k, v) :: rest else p :: objSet rest k v

/-- The object spread of `b` over `a`: fields of `b` written over `a`
one by one, in the order of `b`. -/
def spread2 (a b : List (String × α)) : List (String × α) :=
  b.foldl (fun m p => objSet m p.1 p.2) a

/-- First-defined choice over options, the shape of a JS default chain. -/
def orO (a b : Option α) : Option α :=
  match a with
  | some v => some v
  | none => b

/-- A well-formed JS object carries no duplicate keys. -/
def wfObj (o : List (String × α)) : Prop := (o.map Prod.fst).Nodup

/-- utils.ts `compose`: `reduceRight((result, fn) => fn(result), arg)`, i.e.
the last function is applied first and the first function last. -/
def composeFns (fns : List (α → α)) (arg : α) : α :=
  fns.foldr (fun f r => f r) arg

/-- utils.ts `pipe`: `reduce((result, fn) => fn(result), arg)`, applying the
functions from first to last. -/
def pipeFns (fns : List (α → α)) (arg : α) : α :=
  fns.foldl (fun r f => f r) arg

/-- The default join function of `createJoin` (core.ts): a copy of
compose over the contexts mapped to spread-merge functions, applied to
the empty object, with the
`outcome` property then assigned the default join outcome `"joined"`. -/
def defaultSyncJoinFn (ctxs : List JObj) : JObj :=
  objSet (spread2 [] (composeFns (ctxs.map (fun c => fun acc => spread2 acc c)) []))
    "outcome" (.vStr "joined")

/-- The default join function of `createAsyncJoin` (core.ts): a copy of
a reduce of spread-merges over the contexts from the empty object, with
the
`outcome` property then assigned the default join outcome `"joined"`. -/
def defaultAsyncJoinFn (ctxs : List JObj) : JObj :=
  objSet (spread2 [] (ctxs.foldl (fun m c => spread2 m c) []))
    "outcome" (.vStr "joined")

/-- constants.ts ERROR_EXHAUSTED_RETRIES. -/
def ERROR_EXHAUSTED_RETRIES : String := "Exhausted all retry attempts"

/-- The retry loop shared by core.ts executeWithRetries (lines 66-77) and
the inline synchronous retry loop of createNode.execute (lines 102-115):
`for (attempt = 0; attempt < maxAttempts; attempt++)` tries the wrapped
execute, rethrows when the predicate rejects the error or this was the
last attempt, and throws ERROR_EXHAUSTED_RETRIES after the loop.
`remaining` counts the loop iterations still allowed, so it starts at
`maxAttempts` and the zero case is the fall-through after the loop.
`exec n` is the outcome of invocation number n (0-based); a thrown JS
Error is represented by its message, and the backoff sleep of the async
path does not affect the propagated value. -/
def retryGo (exec : Nat → Except String α) (shouldRetry : String → Bool)
    (maxAttempts : Nat) : Nat → Nat → Except String α
  | 0, _ => .error ERROR_EXHAUSTED_RETRIES
  | remaining + 1, attempt =>
    match exec attempt with
    | .ok v => .ok v
    | .error e =>
      if shouldRetry e = false ∨ attempt + 1 ≥ maxAttempts then .error e
      else retryGo exec shouldRetry maxAttempts remaining (attempt + 1)

/-- core.ts executeWithRetries entry point: run the retry loop from
attempt 0 with all `maxAttempts` iterations available. -/
def executeWithRetries (exec : Nat → Except String α) (maxAttempts : Nat)
    (shouldRetry : String → Bool) : Except String α :=
  retryGo exec shouldRetry maxAttempts maxAttempts 0

/-- types.ts BackoffStrategy. -/
inductive BackoffStrategy where
  | linear : BackoffStrategy
  | exponential : BackoffStrategy
  | fixed : BackoffStrategy

/-- utils.ts calculateBackoff: switch on the strategy; `attempt` is the
1-based attempt number the caller passes in. -/
def calculateBackoff (attempt : Nat) (baseDelayMs : Nat) : BackoffStrategy → Nat
  | .linear => baseDelayMs * attempt
  | .exponential => baseDelayMs * 2 ^ (attempt - 1)
  | .fixed => baseDelayMs

/-- JS truthiness of a value (undefined is modelled as `Option.none` at
use sites). -/
def truthy : JVal → Bool
  | .vStr s => !(s == "")
  | .vNum n => !(n == 0)
  | .vBool b => b
  | .vNull => false
  | .vObj _ => true

/-- Truthiness of a possibly-undefined value. -/
def optTruthy : Option JVal → Bool
  | some v => truthy v
  | none => false

/-- The JS `a || b` over possibly-undefined values: `a` when truthy,
otherwise `b`. -/
def jsOr (a b : Option JVal) : Option JVal :=
  if optTruthy a then a else b

/-- `String(v)` for the values this code can pass to it. -/
def jsToString : JVal → String
  | .vStr s => s
  | .vNum n => toString n
  | .vBool b => if b then "true" else "false"
  | .vNull => "null"
  | .vObj _ => "[object Object]"

/-- `typeof v === "object"` for a defined non-null value. -/
def isObject : JVal → Bool
  | .vObj _ => true
  | _ => false

/-- utils.ts getFromContext with an undefined default:
`key in context ? context[key] : undefined`, lifted to any value (the
source only applies it to objects). -/
def fieldOf (v : JVal) (k : String) : Option JVal :=
  match v with
  | .vObj fs => objGet fs k
  | _ => none

/-- core.ts getResultKey: prefer `result.key`, then `result.id`, then
`result.item.id` (each subject to JS truthiness), then `item.id` or
`item.key`, and otherwise a random token.  The random token
`Math.random().toString(36).substring(2, 11)` is abstracted as the
caller-supplied `tok`. -/
def getResultKey (item : JVal) (result : Option JVal) (tok : String) : String :=
  let fromResult : Option JVal :=
    match result with
    | some r =>
      if truthy r && isObject r then
        jsOr (fieldOf r "key") (jsOr (fieldOf r "id")
          (match fieldOf r "item" with
           | some iv => if truthy iv && isObject iv then fieldOf iv "id" else none
           | none => none))
      else none
    | none => none
  if optTruthy fromResult then jsToString (fromResult.getD .vNull)
  else
    let fromItem : Option JVal :=
      if truthy item && isObject item then jsOr (fieldOf item "id") (fieldOf item "key")
      else none
    if optTruthy fromItem then jsToString (fromItem.getD .vNull) else tok

/-- The failure marker object (processed: false, error: message) recorded for
a batch item whose processing threw. -/
def failureMarker (msg : String) : JVal :=
  .vObj [("processed", .vBool false), ("error", .vStr msg)]

/-- A batch item as the engine sees it: the item value handed to
getResultKey, the behaviour of `processor.execute(item)` per invocation
(0-based invocation index, since the processor may be effectful and the
synchronous batch path invokes it more than once), and the random token
drawn if no key can be derived. -/
structure BItem where
  item : JVal
  exec : Nat → Except String JVal
  tok : String

/-- One item of the synchronous batch loop (core.ts lines 235-242):
`results[getResultKey(item, processor.execute(item))] = processor.execute(item)`
evaluates the key expression (first invocation) before the right-hand
side (second invocation); any throw is caught and replaced by the
failure marker keyed without a result.  Returns the (key, stored value)
entry together with the number of invocations made. -/
def processItemSync (b : BItem) : (String × JVal) × Nat :=
  match b.exec 0 with
  | .error e => ((getResultKey b.item none b.tok, failureMarker e), 1)
  | .ok r0 =>
    match b.exec 1 with
    | .error e => ((getResultKey b.item none b.tok, failureMarker e), 2)
    | .ok r1 => ((getResultKey b.item (some r0) b.tok, r1), 2)

/-- One item of the asynchronous batch path (core.ts lines 266-276):
a single `safeExecute(processor, item)`, its result keyed on success, the
failure marker keyed without a result on a throw. -/
def processItemAsync (b : BItem) : String × JVal :=
  match b.exec 0 with
  | .ok r => (getResultKey b.item (some r) b.tok, r)
  | .error e => (getResultKey b.item none b.tok, failureMarker e)

/-- utils.ts chunkArray: consecutive slices of the given size.  The source
loop `for (i = 0; i < length; i += chunkSize)` never runs with a zero
chunk size on a non-empty array (it would not terminate); the only zero
size the code produces is `min(0, 100)` on an empty array, which yields
no chunks, as the guard here does. -/
def chunkArray (l : List α) (size : Nat) : List (List α) :=
  if _hnz : size = 0 then []
  else match l with
  | [] => []
  | x :: xs => (x :: xs).take size :: chunkArray ((x :: xs).drop size) size
termination_by l.length
decreasing_by
  simp only [List.length_drop, List.length_cons]
  omega

/-- The synchronous batch execute (core.ts lines 230-245): chunk the items
with `Math.min(items.length, 100)`, process each item of each chunk in
order into a keyed result map (a JS object, so insertion ordered with
upsert-in-place), and flatten the map values into the result array that
is handed to the results collector. -/
def syncBatchResults (items : List BItem) : List JVal :=
  ((chunkArray items (min items.length 100)).foldl
      (fun m chunk => chunk.foldl
        (fun m b => objSet m (processItemSync b).1.1 (processItemSync b).1.2) m)
      []).map Prod.snd

/-- utils.ts executeParallel: `Promise.all` over everything when the
concurrency is Infinity (`none`), otherwise chunk the items by the
concurrency bound and await each chunk in turn; either way the result
array is in item order, which this sequential model of the single
threaded event loop returns directly. -/
def executeParallelModel (items : List α) (f : α → β) (concurrency : Option Nat) : List β :=
  match concurrency with
  | none => items.map f
  | some c => ((chunkArray items c).map (fun chunk => chunk.map f)).flatten

/-- The asynchronous batch execute (core.ts lines 262-284): run the item
processor over the items via executeParallel, fold the keyed results into
a map with setInContext (the same upsert as property assignment), and
hand the map values to the results collector. -/
def asyncBatchResults (items : List BItem) (concurrency : Option Nat) : List JVal :=
  ((executeParallelModel items processItemAsync concurrency).foldl
      (fun m e => objSet m e.1 e.2) []).map Prod.snd

/-- A JavaScript value at the heap level: primitives plus references to
objects stored in a heap, so that object identity and in-place mutation
are expressible. -/
inductive HVal where
  | hStr : String → HVal
  | hNum : Int → HVal
  | hBool : Bool → HVal
  | hNull : HVal
  | hRef : Nat → HVal
deriving DecidableEq, Repr

/-- Fields of a heap object. -/
abbrev HObj := List (String × HVal)

/-- The heap: object number `a` lives at index `a`; allocation appends. -/
abbrev Heap := List HObj

/-- Allocate a fresh object, returning the new heap and its address. -/
def alloc (h : Heap) (o : HObj) : Heap × Nat := (h ++ [o], h.length)

/-- Read the object stored at an address. -/
def heapGet (h : Heap) (a : Nat) : Option HObj := h.get? a

/-- Overwrite the object stored at an address (in-place mutation). -/
def heapSet (h : Heap) (a : Nat) (o : HObj) : Heap := h.set a o

/-- JS truthiness at the heap level. -/
def truthyH : HVal → Bool
  | .hStr s => !(s == "")
  | .hNum n => !(n == 0)
  | .hBool b => b
  | .hNull => false
  | .hRef _ => true

/-- Property read `v[k]` through the heap (undefined is `none`). -/
def readField (h : Heap) (v : HVal) (k : String) : Option HVal :=
  match v with
  | .hRef a =>
    match heapGet h a with
    | some fs => objGet fs k
    | none => none
  | _ => none

/-- The fields a spread of v reads from a value: the own fields of an
object, nothing for a primitive. -/
def readFieldsH (h : Heap) (v : HVal) : HObj :=
  match v with
  | .hRef a => (heapGet h a).getD []
  | _ => []

/-- utils.ts setInContext: the spread of the context plus the given
key/value allocates a new
object; the original object is left untouched. -/
def setInContextH (h : Heap) (ctx : HVal) (k : String) (v : HVal) : Heap × HVal :=
  let (h1, a1) := alloc h (objSet (readFieldsH h ctx) k v)
  (h1, .hRef a1)

/-- core.ts updateContextProperty: `context[property] = value`, an in-place
write on an object, a no-op on anything else. -/
def updateContextProperty (h : Heap) (ctx : HVal) (prop : String) (v : HVal) : Heap :=
  match ctx with
  | .hRef a =>
    match heapGet h a with
    | some fields => heapSet h a (objSet fields prop v)
    | none => h
  | _ => h

/-- The `snapshot.metadata.version` test of core.ts mergeContext lines 26-27:
the prepare result carries a truthy object `snapshot` whose truthy object
`metadata` has a `version` property. -/
def snapshotMetaVersion (h : Heap) (snapshot : Option HVal) : Bool :=
  match snapshot with
  | some sv =>
    truthyH sv &&
      (match sv with
       | .hRef sa =>
         (match heapGet h sa with
          | some sFields =>
            (match objGet sFields "metadata" with
             | some mv =>
               truthyH mv &&
                 (match mv with
                  | .hRef ma =>
                    (match heapGet h ma with
                     | some mFields => (objGet mFields "version").isSome
                     | none => false)
                  | _ => false)
             | none => false)
          | none => false)
       | _ => false)
  | none => false

/-- core.ts mergeContext (lines 19-29).  The guard returns early unless the
prepare result is an object distinct from the context and the context is
truthy.  The body filters out the `snapshot` key (and `metadata` under
snapshotMetaVersion) and then, for each remaining entry whose value is
not strictly equal to the current one, rebinds the LOCAL variable
`context` to `setInContext(context, key, value)` — a freshly allocated
object.  The function returns nothing, so only the allocations reach the
caller; no object reachable from the original context is written. -/
def mergeContextH (h : Heap) (context prepareResult : HVal) : Heap :=
  match prepareResult with
  | .hRef pa =>
    if prepareResult = context ∨ truthyH context = false then h
    else
      match heapGet h pa with
      | none => h
      | some pFields =>
        let snapshot := objGet pFields "snapshot"
        let metaExcluded := snapshotMetaVersion h snapshot
        let entries := pFields.filter
          (fun kv => kv.1 ≠ "snapshot" ∧ ¬(kv.1 = "metadata" ∧ metaExcluded = true))
        (entries.foldl
          (fun (st : Heap × HVal) kv =>
            if readField st.1 st.2 kv.1 ≠ some kv.2 then
              setInContextH st.1 st.2 kv.1 kv.2
            else st)
          (h, context)).1
  | _ => h

/-- Copy a list of fields with a supplied copier for the values, threading
the heap left to right. -/
def copyFieldsWith (cp : Heap → HVal → Option (Heap × HVal)) :
    Heap → List (String × HVal) → Option (Heap × List (String × HVal))
  | h, [] => some (h, [])
  | h, (k, v) :: rest =>
    match cp h v with
    | none => none
    | some (h1, v1) =>
      match copyFieldsWith cp h1 rest with
      | none => none
      | some (h2, rest1) => some (h2, (k, v1) :: rest1)

/-- utils.ts deepCopy: `JSON.parse(JSON.stringify(obj))`.  Serialisation
visits the object graph (failing on cycles, modelled by the fuel running
out) and parsing allocates every object freshly, so the copy shares no
object with the original.  Primitives copy as themselves.  Defined via
the Nat recursor so that closed instances reduce definitionally. -/
def deepCopyVal (fuel : Nat) : Heap → HVal → Option (Heap × HVal) :=
  Nat.rec (motive := fun _ => Heap → HVal → Option (Heap × HVal))
    (fun _ _ => none)
    (fun _ ih h v =>
      match v with
      | .hRef a =>
        match heapGet h a with
        | none => none
        | some fields =>
          match copyFieldsWith ih h fields with
          | none => none
          | some (h1, fields1) =>
            let (h2, a2) := alloc h1 fields1
            some (h2, .hRef a2)
      | .hStr s => some (h, .hStr s)
      | .hNum n => some (h, .hNum n)
      | .hBool b => some (h, .hBool b)
      | .hNull => some (h, .hNull))
    fuel

/-- A node at the heap level: the three user phase functions, as state
transformers over the heap.  The phase functions are total, which models
exactly the executions in which no phase throws (the retry wrapper then
amounts to the single call its first attempt makes); the throwing
behaviour of the phases is modelled at the value level by retryGo. -/
structure SNode where
  prepareFn : Heap → HVal → Heap × HVal
  executeFn : Heap → HVal → Heap × HVal
  finalizeFn : Heap → HVal → HVal → HVal → Heap × String

/-- The `iterations` special case of createNode.execute (lines 117-118):
when the prepare result is an object with an `iterations` property, write
it onto the context in place via updateContextProperty. -/
def iterationsUpdate (h : Heap) (ctx prep : HVal) : Heap :=
  match prep with
  | .hRef a =>
    match heapGet h a with
    | some fields =>
      match objGet fields "iterations" with
      | some v => updateContextProperty h ctx "iterations" v
      | none => h
    | none => h
  | _ => h

/-- createNode.execute (core.ts lines 98-126) for a non-throwing execution:
prepare on a deep copy of the context, execute on the prepare result,
finalize on the ORIGINAL context, the `iterations` special case, then
mergeContext, and return the same context object that was passed in.
`none` when deepCopy runs out of fuel (a cyclic context). -/
def nodeExecute (nd : SNode) (fuel : Nat) (h : Heap) (ctx : HVal) : Option (Heap × HVal) :=
  (deepCopyVal fuel h ctx).map fun p =>
    let (h2, prep) := nd.prepareFn p.1 p.2
    let (h3, er) := nd.executeFn h2 prep
    let (h4, _outcome) := nd.finalizeFn h3 ctx prep er
    let h5 := iterationsUpdate h4 ctx prep
    (mergeContextH h5 ctx prep, ctx)

/-- createAsyncNode.execute (core.ts lines 150-172) for a non-throwing
execution: unlike the synchronous variant there is no deep copy — prepare
receives the incoming context object itself — and there is no
`iterations` special case; then execute, finalize, mergeContext, and
return the same context object. -/
def asyncNodeExecute (nd : SNode) (h : Heap) (ctx : HVal) : Heap × HVal :=
  let (h1, prep) := nd.prepareFn h ctx
  let (h2, er) := nd.executeFn h1 prep
  let (h3, _outcome) := nd.finalizeFn h2 ctx prep er
  (mergeContextH h3 ctx prep, ctx)

/-- The branch loop of createFork, mapping each node to its execute on a
spread of copiedContext: for each branch
in declaration order, allocate a fresh shallow copy of the (single)
deep-copied context — its field values, object references included, are
shared — and run the branch on it, threading the heap. -/
def runBranches (h : Heap) (copied : HVal) :
    List (Heap → HVal → Heap × HVal) → Heap × List HVal
  | [] => (h, [])
  | b :: bs =>
    let (h1, a1) := alloc h (readFieldsH h copied)
    let (h2, r) := b h1 (.hRef a1)
    let (h3, rs) := runBranches h2 copied bs
    (h3, r :: rs)

/-- createFork execute (core.ts lines 197-205): one deep copy of the input
context; with zero branches, a single-element array holding
the spread of copiedContext with outcome set to DEFAULT_FORK_OUTCOME;
otherwise one
result per branch via runBranches. -/
def forkExecute (branches : List (Heap → HVal → Heap × HVal)) (fuel : Nat)
    (h : Heap) (ctx : HVal) : Option (Heap × List HVal) :=
  (deepCopyVal fuel h ctx).map fun p =>
    if branches.isEmpty then
      let (h2, a2) := alloc p.1 (objSet (readFieldsH p.1 p.2) "outcome" (.hStr "forked"))
      (h2, [HVal.hRef a2])
    else runBranches p.1 p.2 branches

/-- createAsyncFork execute (core.ts lines 207-215): the same copy scheme
as the synchronous fork; the branches are started by executeParallel on
the single-threaded event loop, modelled sequentially. -/
def asyncForkExecute (branches : List (Heap → HVal → Heap × HVal)) (fuel : Nat)
    (h : Heap) (ctx : HVal) : Option (Heap × List HVal) :=
  (deepCopyVal fuel h ctx).map fun p =>
    if branches.isEmpty then
      let (h2, a2) := alloc p.1 (objSet (readFieldsH p.1 p.2) "outcome" (.hStr "forked"))
      (h2, [HVal.hRef a2])
    else runBranches p.1 p.2 branches

/-- types.ts RetryPolicy. -/
structure RetryPolicy where
  maxAttempts : Nat
  delayMs : Nat
  backoff : BackoffStrategy
  retryPredicate : Option (String → Bool)

/-- A synchronous Node value as built by createNode/createCompleteNode:
the three phase functions plus the optional retry policy (value-level
view, used for the builder claims). -/
structure NodeV where
  prepareFn : JObj → JVal
  executeFn : JVal → JVal
  finalizeFn : JObj → JVal → JVal → String
  retryPolicy : Option RetryPolicy

/-- createCompleteNode builder `withPrepare`: a new node with the prepare
function replaced and every other field taken from the receiver. -/
def NodeV.withPrepare (nd : NodeV) (fn : JObj → JVal) : NodeV :=
  { nd with prepareFn := fn }

/-- createCompleteNode builder `withExecuteLogic`. -/
def NodeV.withExecuteLogic (nd : NodeV) (fn : JVal → JVal) : NodeV :=
  { nd with executeFn := fn }

/-- createCompleteNode builder `withFinalize`. -/
def NodeV.withFinalize (nd : NodeV) (fn : JObj → JVal → JVal → String) : NodeV :=
  { nd with finalizeFn := fn }

/-- createCompleteNode builder `withRetry`. -/
def NodeV.withRetry (nd : NodeV) (policy : RetryPolicy) : NodeV :=
  { nd with retryPolicy := some policy }

/-- The observable state of a Join object (core.ts createJoin): the closure
variable `joinFn` that both its `execute` and the `execute` of everything
`withJoinFn` returns read. -/
structure JoinObj where
  joinFn : List JObj → JObj

/-- `join.create()`: the closure variable starts as the default join
function. -/
def createJoin : JoinObj := ⟨defaultSyncJoinFn⟩

/-- Join `execute(contexts)`: apply the current `joinFn`. -/
def JoinObj.run (j : JoinObj) (ctxs : List JObj) : JObj := j.joinFn ctxs

/-- `withJoinFn(fn)` (core.ts line 359) executes the assignment
`joinFn = fn` on the closure variable shared with the receiver before
returning a new object reading the same variable: the state of the
receiver after the call is therefore the state returned here. -/
def JoinObj.withJoinFn (_j : JoinObj) (fn : List JObj → JObj) : JoinObj := ⟨fn⟩

/-- The observable state of a When object (core.ts createWhen): the
configured outcome tag, the target node (as a context transformer) and
the closure variable `conditionFn`. -/
structure WhenObj where
  tag : String
  target : JObj → JObj
  conditionFn : JObj → Bool

/-- The default condition: `getFromContext(context, "outcome") === condition`,
true exactly when the context has an `outcome` property holding the
configured tag as a string. -/
def defaultWhenCond (tag : String) (ctx : JObj) : Bool :=
  match objGet ctx "outcome" with
  | some (.vStr s) => s == tag
  | _ => false

/-- `when(outcome, targetNode)`. -/
def createWhen (tag : String) (target : JObj → JObj) : WhenObj :=
  ⟨tag, target, defaultWhenCond tag⟩

/-- When `execute(context)`: run the target node when the current condition
holds, otherwise return the context unchanged. -/
def WhenObj.run (w : WhenObj) (ctx : JObj) : JObj :=
  if w.conditionFn ctx then w.target ctx else ctx

/-- `withCondition(fn)` (core.ts lines 386-387) executes `conditionFn = fn`
on the closure variable shared with the receiver before returning a new
object using `fn`: the state of the receiver after the call is the state
returned here. -/
def WhenObj.withCondition (w : WhenObj) (fn : JObj → Bool) : WhenObj :=
  { w with conditionFn := fn }

instance (o : List (String × α)) : Decidable (wfObj o) := by
  unfold wfObj
  infer_instance

/-- An item whose processor reports a different key and value on each
invocation, exhibiting the key/value split between the two calls. -/
def c10item : BItem :=
  { item := .vObj [("id", .vStr "it1")],
    exec := fun n => .ok (.vObj [("key", .vStr ("k" ++ toString n)), ("n", .vNum n)]),
    tok := "fallbacktok" }

/-- Batch item j of the five-item witness scenario: carries id "item<j>",
succeeds with a tagged result unless told to fail, in which case every
invocation throws "boom<j>". -/
def c6item (j : Nat) (fail : Bool) : BItem :=
  { item := .vObj [("id", .vStr ("item" ++ toString j))],
    exec := fun _ =>
      if fail then .error ("boom" ++ toString j)
      else .ok (.vObj [("id", .vStr ("item" ++ toString j)), ("processed", .vBool true)]),
    tok := "tok" ++ toString j }

/-- Five items of which the ones at indexes 2 and 4 throw. -/
def c6items : List BItem :=
  [c6item 0 false, c6item 1 false, c6item 2 true, c6item 3 false, c6item 4 true]

/-- A target node for the conditional-gate scenario: records that it ran. -/
def c9target (c : JObj) : JObj := objSet c "ran" (JVal.vBool true)

/-- A node whose prepare allocates and returns a fresh record with a = 1,
whose execute is the identity and whose finalize returns the default
outcome without touching anything. -/
def c1node : SNode :=
  { prepareFn := fun h _ =>
      let (h1, a1) := alloc h [("a", HVal.hNum 1)]
      (h1, .hRef a1),
    executeFn := fun h v => (h, v),
    finalizeFn := fun h _ _ _ => (h, "default") }

/-- A node whose prepare writes x = 99 onto its argument in place and
returns it. -/
def c4node : SNode :=
  { prepareFn := fun h ctx => (updateContextProperty h ctx "x" (HVal.hNum 99), ctx),
    executeFn := fun h v => (h, v),
    finalizeFn := fun h _ _ _ => (h, "default") }

/-- A fork branch that writes 99 into the nested object behind the
field n of its context, in place. -/
def mutateNestedBranch (h : Heap) (c : HVal) : Heap × HVal :=
  match readField h c "n" with
  | some (.hRef a) =>
    (match heapGet h a with
     | some fs => (heapSet h a (objSet fs "x" (HVal.hNum 99)), c)
     | none => (h, c))
  | _ => (h, c)

/-- Heap for the fork-sharing scenario: a context whose field n holds a
nested object with x = 1. -/
def c3heap : Heap := [[("n", HVal.hRef 1)], [("x", HVal.hNum 1)]]

/-- Two branches: the first mutates the nested object, the second only
returns its context. -/
def c3branches : List (Heap → HVal → Heap × HVal) :=
  [mutateNestedBranch, fun h c => (h, c)]

/-- What the context of the SECOND branch shows at n.x after the fork ran. -/
def c3secondBranchNestedX : Option HVal :=
  match forkExecute c3branches 5 c3heap (HVal.hRef 0) with
  | some (h, [_, c2]) =>
    (match readField h c2 "n" with
     | some nv => readField h nv "x"
     | none => none)
  | _ => none

theorem orO_none_left (b : Option α) : orO none b = b := rfl

theorem orO_none_right (a : Option α) : orO a none = a := by
  cases a <;> rfl

theorem orO_assoc (a b c : Option α) : orO a (orO b c) = orO (orO a b) c := by
  cases a <;> rfl

theorem objGet_nil (k : String) : objGet ([] : List (String × α)) k = none := rfl

theorem objGet_cons (p : String × α) (l : List (String × α)) (k : String) :
    objGet (p :: l) k = if p.1 == k then some p.2 else objGet l k := by
  by_cases h : p.1 == k <;> simp [objGet, List.find?_cons, h]

theorem objGet_append (l₁ l₂ : List (String × α)) (k : String) :
    objGet (l₁ ++ l₂) k = orO (objGet l₁ k) (objGet l₂ k) := by
  induction l₁ with
  | nil => simp [objGet_nil, orO_none_left]
  | cons p rest ih =>
    rw [List.cons_append, objGet_cons, objGet_cons]
    by_cases h : p.1 == k <;> simp [h, ih, orO]

theorem objGet_eq_none_of_not_mem (o : List (String × α)) (k : String)
    (h : k ∉ o.map Prod.fst) : objGet o k = none := by
  induction o with
  | nil => rfl
  | cons p rest ih =>
    rw [List.map_cons, List.mem_cons] at h
    push_neg at h
    rw [objGet_cons, if_neg (by simpa using fun e : p.1 = k => h.1 e.symm)]
    exact ih h.2

theorem objGet_objSet (o : List (String × α)) (k : String) (v : α) (k' : String) :
    objGet (objSet o k v) k' = if k' = k then some v else objGet o k' := by
  induction o with
  | nil =>
    by_cases h : k' = k
    · subst h
      simp [objSet, objGet_cons]
    · have h2 : ¬ (k == k') := by simpa using fun e : k = k' => h e.symm
      simp [objSet, objGet_cons, h, h2, objGet_nil]
  | cons p rest ih =>
    by_cases hp : p.1 == k
    · have hp1 : p.1 = k := by simpa using hp
      rw [objSet, if_pos hp, objGet_cons, objGet_cons]
      by_cases hk : k' = k
      · subst hk
        simp
      · have h2 : ¬ (k == k') := by simpa using fun e : k = k' => hk e.symm
        have h3 : ¬ (p.1 == k') := by rw [hp1]; exact h2
        simp [h2, h3, hk]
    · rw [objSet, if_neg hp, objGet_cons, objGet_cons, ih]
      by_cases hk : k' = k
      · subst hk
        have h3 : ¬ (p.1 == k') := by simpa using fun e : p.1 = k' => hp (by simpa using e)
        simp [h3]
      · simp [hk]

theorem mem_keys_objSet (o : List (String × α)) (k : String) (v : α) (k'' : String) :
    k'' ∈ (objSet o k v).map Prod.fst ↔ k'' ∈ o.map Prod.fst ∨ k'' = k := by
  induction o with
  | nil => simp [objSet]
  | cons p rest ih =>
    by_cases hp : p.1 == k
    · have hp1 : p.1 = k := by simpa using hp
      rw [objSet, if_pos hp]
      simp [hp1]
      tauto
    · rw [objSet, if_neg hp]
      simp [ih]
      tauto

theorem wfObj_objSet (o : List (String × α)) (k : String) (v : α) (h : wfObj o) :
    wfObj (objSet o k v) := by
  induction o with
  | nil => simp [objSet, wfObj]
  | cons p rest ih =>
    unfold wfObj at h ⊢
    rw [List.map_cons, List.nodup_cons] at h
    by_cases hp : p.1 == k
    · have hp1 : p.1 = k := by simpa using hp
      rw [objSet, if_pos hp, List.map_cons, List.nodup_cons]
      exact ⟨by rw [← hp1]; exact h.1, h.2⟩
    · have hp1 : ¬ p.1 = k := by simpa using hp
      rw [objSet, if_neg hp, List.map_cons, List.nodup_cons]
      refine ⟨?_, ih h.2⟩
      rw [mem_keys_objSet]
      push_neg
      exact ⟨h.1, hp1⟩

theorem wfObj_spread2 (a b : List (String × α)) (ha : wfObj a) : wfObj (spread2 a b) := by
  induction b generalizing a with
  | nil => exact ha
  | cons p rest ih => exact ih (objSet a p.1 p.2) (wfObj_objSet a p.1 p.2 ha)

theorem objGet_spread2 (a b : List (String × α)) (hb : wfObj b) (k : String) :
    objGet (spread2 a b) k = orO (objGet b k) (objGet a k) := by
  induction b generalizing a with
  | nil => simp [spread2, objGet_nil, orO_none_left]
  | cons p rest ih =>
    have hb' : wfObj rest := (List.nodup_cons.mp hb).2
    have hnotin : p.1 ∉ rest.map Prod.fst := (List.nodup_cons.mp hb).1
    have hrest : objGet rest p.1 = none := objGet_eq_none_of_not_mem rest p.1 hnotin
    show objGet (spread2 (objSet a p.1 p.2) rest) k = _
    rw [ih (objSet a p.1 p.2) hb', objGet_objSet, objGet_cons]
    by_cases hk : p.1 == k
    · have hk' : k = p.1 := (beq_iff_eq.mp hk).symm
      subst hk'
      simp [hrest, orO]
    · have hk' : ¬ k = p.1 := by
        intro hc
        exact absurd (by simp [hc] : (p.1 == k) = true) (by simpa using hk)
      simp [hk, hk']

theorem findSome?_append (f : α → Option β) (l₁ l₂ : List α) :
    (l₁ ++ l₂).findSome? f = orO (l₁.findSome? f) (l₂.findSome? f) := by
  induction l₁ with
  | nil => simp [orO_none_left]
  | cons a rest ih =>
    rw [List.cons_append, List.findSome?_cons, List.findSome?_cons]
    cases f a <;> simp [ih, orO]

theorem findSome?_singleton (f : α → Option β) (a : α) :
    [a].findSome? f = f a := by
  rw [List.findSome?_cons]
  cases f a <;> simp

theorem composeFns_map_spread (ctxs : List JObj) (init : JObj) :
    composeFns (ctxs.map (fun c => fun acc => spread2 acc c)) init =
      ctxs.reverse.foldl spread2 init := by
  induction ctxs with
  | nil => rfl
  | cons c rest ih =>
    show spread2 (composeFns (rest.map _) init) c = _
    rw [ih, List.reverse_cons, List.foldl_append]
    rfl

theorem objGet_foldl_spread2 (ctxs : List JObj) (a : JObj)
    (h : ∀ c ∈ ctxs, wfObj c) (k : String) :
    objGet (ctxs.foldl spread2 a) k =
      orO (ctxs.reverse.findSome? (fun c => objGet c k)) (objGet a k) := by
  induction ctxs generalizing a with
  | nil => simp [orO_none_left]
  | cons c rest ih =>
    have hc : wfObj c := h c (List.mem_cons_self c rest)
    have hrest : ∀ x ∈ rest, wfObj x := fun x hx => h x (List.mem_cons_of_mem c hx)
    show objGet (rest.foldl spread2 (spread2 a c)) k = _
    rw [ih (spread2 a c) hrest, objGet_spread2 a c hc, List.reverse_cons,
      findSome?_append, findSome?_singleton, ← orO_assoc]

theorem wfObj_foldl_spread2 (ctxs : List JObj) (a : JObj) (ha : wfObj a) :
    wfObj (ctxs.foldl spread2 a) := by
  induction ctxs generalizing a with
  | nil => exact ha
  | cons c rest ih => exact ih (spread2 a c) (wfObj_spread2 a c ha)

theorem wfObj_nil : wfObj ([] : List (String × α)) := List.nodup_nil

theorem retryGo_all_fail {α : Type} (exec : Nat → Except String α) (p : String → Bool)
    (maxAttempts : Nat) (errs : Nat → String)
    (hfail : ∀ n, exec n = .error (errs n)) (hp : ∀ e, p e = true) :
    ∀ remaining attempt, 1 ≤ remaining → attempt + remaining = maxAttempts →
      retryGo exec p maxAttempts remaining attempt = .error (errs (maxAttempts - 1)) := by
  intro remaining
  induction remaining with
  | zero => intro attempt h; omega
  | succ r ih =>
    intro attempt _ hsum
    rw [retryGo, hfail attempt]
    show (if p (errs attempt) = false ∨ attempt + 1 ≥ maxAttempts then
        Except.error (errs attempt)
      else retryGo exec p maxAttempts r (attempt + 1)) = _
    by_cases hlast : attempt + 1 ≥ maxAttempts
    · rw [if_pos (Or.inr hlast)]
      have : attempt = maxAttempts - 1 := by omega
      rw [this]
    · rw [if_neg (by simp [hp, hlast])]
      exact ih (attempt + 1) (by omega) (by omega)

theorem chunkArray_flatten {α : Type u} (size : Nat) (hs : 1 ≤ size) :
    ∀ (n : Nat) (l : List α), l.length ≤ n → (chunkArray l size).flatten = l := by
  intro n
  induction n with
  | zero =>
    intro l hl
    have hnil : l = [] := List.eq_nil_of_length_eq_zero (by omega)
    subst hnil
    unfold chunkArray
    rw [dif_neg (by omega)]
    rfl
  | succ m ih =>
    intro l hl
    match l with
    | [] =>
      unfold chunkArray
      rw [dif_neg (by omega)]
      rfl
    | x :: xs =>
      unfold chunkArray
      rw [dif_neg (by omega)]
      show ((x :: xs).take size :: chunkArray ((x :: xs).drop size) size).flatten = x :: xs
      rw [List.flatten_cons,
        ih ((x :: xs).drop size) (by
          simp only [List.length_drop, List.length_cons]
          simp only [List.length_cons] at hl
          omega)]
      exact List.take_append_drop size (x :: xs)

theorem objSet_append_fresh (m : List (String × α)) (k : String) (v : α)
    (h : k ∉ m.map Prod.fst) : objSet m k v = m ++ [(k, v)] := by
  induction m with
  | nil => rfl
  | cons p rest ih =>
    rw [List.map_cons, List.mem_cons] at h
    push_neg at h
    rw [objSet, if_neg (by simpa using fun e : p.1 = k => h.1 e.symm), List.cons_append,
      ih h.2]

theorem foldl_objSet_fresh (entries : List (String × α)) :
    ∀ m : List (String × α), (entries.map Prod.fst).Nodup →
      (∀ k ∈ entries.map Prod.fst, k ∉ m.map Prod.fst) →
      entries.foldl (fun m e => objSet m e.1 e.2) m = m ++ entries := by
  induction entries with
  | nil => intro m _ _; simp
  | cons e rest ih =>
    intro m hnd hdisj
    rw [List.map_cons, List.nodup_cons] at hnd
    show rest.foldl (fun m e => objSet m e.1 e.2) (objSet m e.1 e.2) = m ++ e :: rest
    rw [objSet_append_fresh m e.1 e.2 (hdisj e.1 (by simp))]
    rw [ih (m ++ [(e.1, e.2)]) hnd.2 ?_]
    · simp
    · intro k hk
      rw [List.map_append, List.mem_append]
      push_neg
      constructor
      · exact hdisj k (by simp [hk])
      · simp only [List.map_cons, List.map_nil, List.mem_singleton]
        intro hke
        exact hnd.1 (by rw [← hke]; exact hk)

theorem foldl_foldl_flatten (chunks : List (List α)) (f : β → α → β) :
    ∀ init : β, chunks.foldl (fun m chunk => chunk.foldl f m) init =
      chunks.flatten.foldl f init := by
  induction chunks with
  | nil => intro init; rfl
  | cons chunk rest ih =>
    intro init
    rw [List.flatten_cons, List.foldl_append]
    exact ih (chunk.foldl f init)

theorem syncBatchResults_eq (items : List BItem)
    (hnd : (items.map (fun b => (processItemSync b).1.1)).Nodup) :
    syncBatchResults items = items.map (fun b => (processItemSync b).1.2) := by
  unfold syncBatchResults
  match hitems : items with
  | [] => simp [chunkArray]
  | x :: xs =>
    rw [foldl_foldl_flatten,
      chunkArray_flatten (min (x :: xs).length 100) (by simp) (x :: xs).length (x :: xs)
        (le_refl _)]
    have hfold : (x :: xs).foldl
        (fun m b => objSet m (processItemSync b).1.1 (processItemSync b).1.2) [] =
        ((x :: xs).map (fun b => ((processItemSync b).1.1, (processItemSync b).1.2))).foldl
          (fun m e => objSet m e.1 e.2) [] := by
      rw [List.foldl_map]
    rw [hfold, foldl_objSet_fresh _ []
      (by simpa [List.map_map, Function.comp] using hnd)
      (by simp)]
    simp [List.map_map, Function.comp]

theorem executeParallelModel_eq_map (items : List α) (f : α → β) (c : Option Nat)
    (hc : ∀ n, c = some n → 1 ≤ n) : executeParallelModel items f c = items.map f := by
  match c with
  | none => rfl
  | some n =>
    show ((chunkArray items n).map (fun chunk => chunk.map f)).flatten = items.map f
    rw [← List.map_flatten, chunkArray_flatten n (hc n rfl) items.length items (le_refl items.length)]

theorem asyncBatchResults_eq (items : List BItem) (c : Option Nat)
    (hc : ∀ n, c = some n → 1 ≤ n)
    (hnd : (items.map (fun b => (processItemAsync b).1)).Nodup) :
    asyncBatchResults items c = items.map (fun b => (processItemAsync b).2) := by
  unfold asyncBatchResults
  rw [executeParallelModel_eq_map items processItemAsync c hc]
  have hfold : (items.map processItemAsync).foldl (fun m e => objSet m e.1 e.2) [] =
      ((items.map (fun b => ((processItemAsync b).1, (processItemAsync b).2))).foldl
        (fun m e => objSet m e.1 e.2) []) := by
    simp
  rw [hfold, foldl_objSet_fresh _ []
    (by simpa [List.map_map, Function.comp] using hnd)
    (by simp)]
  simp [List.map_map, Function.comp]

theorem runBranches_length (bs : List (Heap → HVal → Heap × HVal)) :
    ∀ (h : Heap) (copied : HVal), (runBranches h copied bs).2.length = bs.length := by
  induction bs with
  | nil => intro h copied; rfl
  | cons b rest ih =>
    intro h copied
    show (runBranches _ copied rest).2.length + 1 = rest.length + 1
    rw [ih]

/-- C7: for every 1-based attempt number n and base delay d, the backoff
delay is d * n under linear, d * 2 ^ (n - 1) under exponential and d
under fixed; in particular linear(3, 10) = 30, exponential(3, 10) = 40
and fixed(n, 10) = 10. -/
theorem backoff_formulas (n d : Nat) (_h1 : 1 ≤ n) :
    calculateBackoff n d .linear = d * n ∧
    calculateBackoff n d .exponential = d * 2 ^ (n - 1) ∧
    calculateBackoff n d .fixed = d ∧
    calculateBackoff 3 10 .linear = 30 ∧
    calculateBackoff 3 10 .exponential = 40 ∧
    calculateBackoff n 10 .fixed = 10 :=
  ⟨rfl, rfl, rfl, rfl, rfl, rfl⟩

theorem backoff_formulas_witness :
    1 ≤ 3 ∧
    calculateBackoff 3 10 .linear = 30 ∧
    calculateBackoff 3 10 .exponential = 40 ∧
    calculateBackoff 3 10 .fixed = 10 :=
  ⟨by decide,
    (backoff_formulas 3 10 (by decide)).2.2.2.1,
    (backoff_formulas 3 10 (by decide)).2.2.2.2.1,
    (backoff_formulas 3 10 (by decide)).2.2.1⟩

/-- C2 counterexample: an execute failing on both of its maxAttempts = 2
attempts, with the retry predicate accepting every error, propagates the
original error "boom", not an error of kind RetryExhausted (whose message
is ERROR_EXHAUSTED_RETRIES): the in-loop rethrow on the last attempt
fires before the loop can fall through. -/
theorem retry_exhausted_counterexample :
    executeWithRetries (fun _ => (Except.error "boom" : Except String Unit)) 2
        (fun _ => true) = Except.error "boom" ∧
    "boom" ≠ ERROR_EXHAUSTED_RETRIES := by
  refine ⟨rfl, ?_⟩
  decide

/-- C2 (amended): when every one of the maxAttempts ≥ 1 attempts fails and
the predicate accepts each error, the error of the LAST attempt
propagates unchanged (ERROR_EXHAUSTED_RETRIES is thrown only in the
degenerate maxAttempts = 0 case, where the loop never runs); when the
predicate rejects the first error, that original error propagates
immediately. -/
theorem retry_error_propagation (α : Type) (exec : Nat → Except String α)
    (maxAttempts : Nat) (p : String → Bool) (errs : Nat → String)
    (hm : 1 ≤ maxAttempts)
    (hfail : ∀ n, exec n = .error (errs n))
    (hp : ∀ e, p e = true) :
    executeWithRetries exec maxAttempts p = .error (errs (maxAttempts - 1)) ∧
    (∀ (exec2 : Nat → Except String α) (q : String → Bool) (e : String),
        exec2 0 = .error e → q e = false →
        executeWithRetries exec2 maxAttempts q = .error e) ∧
    (∀ (exec3 : Nat → Except String α) (q : String → Bool),
        executeWithRetries exec3 0 q = .error ERROR_EXHAUSTED_RETRIES) := by
  refine ⟨?_, ?_, ?_⟩
  · exact retryGo_all_fail exec p maxAttempts errs hfail hp maxAttempts 0 hm (by omega)
  · intro exec2 q e h0 hq
    obtain ⟨m, rfl⟩ : ∃ m, maxAttempts = m + 1 := ⟨maxAttempts - 1, by omega⟩
    show retryGo exec2 q (m + 1) (m + 1) 0 = Except.error e
    rw [retryGo, h0]
    show (if q e = false ∨ 0 + 1 ≥ m + 1 then Except.error e
      else retryGo exec2 q (m + 1) m 1) = Except.error e
    rw [if_pos (Or.inl hq)]
  · intro exec3 q
    rfl

theorem retry_error_propagation_witness :
    1 ≤ 3 ∧
    executeWithRetries (fun _ => (Except.error "fail3" : Except String Unit)) 3
        (fun _ => true) = Except.error "fail3" :=
  ⟨by decide,
    (retry_error_propagation Unit (fun _ => Except.error "fail3") 3 (fun _ => true)
      (fun _ => "fail3") (by decide) (fun _ => rfl) (fun _ => rfl)).1⟩

/-- C5 counterexample: over the non-empty context list
(a: 1) then (a: 2) the default synchronous Join yields a = 1 —
compose applies the first mapped merge function LAST, so the EARLIER
context wins — where the claim requires the later value 2. -/
theorem join_sync_counterexample :
    objGet (defaultSyncJoinFn [[("a", JVal.vNum 1)], [("a", JVal.vNum 2)]]) "a" =
      some (JVal.vNum 1) ∧
    some (JVal.vNum 1) ≠ some (JVal.vNum 2) := by
  refine ⟨rfl, ?_⟩
  intro h
  injection h with h1
  injection h1 with h2
  exact absurd h2 (by decide)

/-- C5 (amended): for every list of contexts, the default AsyncJoin merges
left to right so the later (higher-index) context wins for a duplicated
key, but the default synchronous Join builds the merge through compose
(reduceRight) so the EARLIER (lower-index) context wins; both stamp
outcome = "joined" on the result. -/
theorem join_default_merge_direction (ctxs : List JObj) (k : String)
    (hwf : ∀ c ∈ ctxs, wfObj c) (hk : ¬ k = "outcome") :
    objGet (defaultSyncJoinFn ctxs) k = ctxs.findSome? (fun c => objGet c k) ∧
    objGet (defaultAsyncJoinFn ctxs) k = ctxs.reverse.findSome? (fun c => objGet c k) ∧
    objGet (defaultSyncJoinFn ctxs) "outcome" = some (.vStr "joined") ∧
    objGet (defaultAsyncJoinFn ctxs) "outcome" = some (.vStr "joined") := by
  have hrevwf : ∀ c ∈ ctxs.reverse, wfObj c := fun c hc => hwf c (List.mem_reverse.mp hc)
  have hMsync : composeFns (ctxs.map (fun c => fun acc => spread2 acc c)) [] =
      ctxs.reverse.foldl spread2 [] := composeFns_map_spread ctxs []
  have hwfsync : wfObj (ctxs.reverse.foldl spread2 ([] : JObj)) :=
    wfObj_foldl_spread2 ctxs.reverse [] wfObj_nil
  have hwfasync : wfObj (ctxs.foldl spread2 ([] : JObj)) :=
    wfObj_foldl_spread2 ctxs [] wfObj_nil
  refine ⟨?_, ?_, ?_, ?_⟩
  · unfold defaultSyncJoinFn
    rw [hMsync, objGet_objSet, if_neg hk, objGet_spread2 [] _ hwfsync,
      objGet_nil, orO_none_right, objGet_foldl_spread2 ctxs.reverse [] hrevwf,
      List.reverse_reverse, objGet_nil, orO_none_right]
  · unfold defaultAsyncJoinFn
    rw [objGet_objSet, if_neg hk, objGet_spread2 [] _ hwfasync, objGet_nil,
      orO_none_right, objGet_foldl_spread2 ctxs [] hwf, objGet_nil, orO_none_right]
  · unfold defaultSyncJoinFn
    rw [objGet_objSet, if_pos rfl]
  · unfold defaultAsyncJoinFn
    rw [objGet_objSet, if_pos rfl]

theorem join_default_merge_direction_witness :
    (∀ c ∈ [[("b", JVal.vNum 7)], [("b", JVal.vNum 8)]], wfObj c) ∧
    ¬ ("b" = "outcome") ∧
    objGet (defaultAsyncJoinFn [[("b", JVal.vNum 7)], [("b", JVal.vNum 8)]]) "b" =
      some (JVal.vNum 8) ∧
    objGet (defaultSyncJoinFn [[("b", JVal.vNum 7)], [("b", JVal.vNum 8)]]) "outcome" =
      some (JVal.vStr "joined") := by
  refine ⟨by decide, by decide, ?_, ?_⟩
  · exact (join_default_merge_direction [[("b", JVal.vNum 7)], [("b", JVal.vNum 8)]] "b"
      (by decide) (by decide)).2.1
  · exact (join_default_merge_direction [[("b", JVal.vNum 7)], [("b", JVal.vNum 8)]] "b"
      (by decide) (by decide)).2.2.1

/-- C10: in the synchronous BatchProcessor, an item whose processing
succeeds has its processor invoked exactly twice — the key comes from
the FIRST invocation and the stored value from the SECOND — so an
effectful or non-deterministic item node runs twice per item and the key
and the stored value may come from different invocations. -/
theorem sync_batch_double_invocation (b : BItem) (r0 r1 : JVal)
    (h0 : b.exec 0 = Except.ok r0) (h1 : b.exec 1 = Except.ok r1) :
    processItemSync b = ((getResultKey b.item (some r0) b.tok, r1), 2) := by
  unfold processItemSync
  rw [h0, h1]

theorem sync_batch_double_invocation_witness :
    c10item.exec 0 = Except.ok (JVal.vObj [("key", .vStr "k0"), ("n", .vNum 0)]) ∧
    c10item.exec 1 = Except.ok (JVal.vObj [("key", .vStr "k1"), ("n", .vNum 1)]) ∧
    processItemSync c10item =
      ((getResultKey c10item.item
          (some (JVal.vObj [("key", .vStr "k0"), ("n", .vNum 0)])) c10item.tok,
        JVal.vObj [("key", .vStr "k1"), ("n", .vNum 1)]), 2) ∧
    (processItemSync c10item).1.1 = "k0" ∧
    (processItemSync c10item).1.2 = JVal.vObj [("key", .vStr "k1"), ("n", .vNum 1)] :=
  ⟨rfl, rfl, sync_batch_double_invocation c10item _ _ rfl rfl, rfl, rfl⟩

/-- C6: a per-item throw never aborts the batch or escapes it — the item
contributes the marker (processed: false, error: message) — and over
items whose derived result keys are pairwise distinct (distinct item
identities) the results-collector receives exactly one result per item,
in item order, successes and failure markers intermixed, for both the
synchronous and the asynchronous batch path. -/
theorem batch_item_failure_isolation (items : List BItem) (c : Option Nat)
    (hc : ∀ n, c = some n → 1 ≤ n)
    (hsync : (items.map (fun b => (processItemSync b).1.1)).Nodup)
    (hasync : (items.map (fun b => (processItemAsync b).1)).Nodup) :
    syncBatchResults items = items.map (fun b => (processItemSync b).1.2) ∧
    asyncBatchResults items c = items.map (fun b => (processItemAsync b).2) ∧
    (syncBatchResults items).length = items.length ∧
    (asyncBatchResults items c).length = items.length ∧
    (∀ b e, b.exec 0 = Except.error e → (processItemSync b).1.2 = failureMarker e) ∧
    (∀ b r e, b.exec 0 = Except.ok r → b.exec 1 = Except.error e →
        (processItemSync b).1.2 = failureMarker e) ∧
    (∀ b e, b.exec 0 = Except.error e → (processItemAsync b).2 = failureMarker e) := by
  have h1 := syncBatchResults_eq items hsync
  have h2 := asyncBatchResults_eq items c hc hasync
  refine ⟨h1, h2, by rw [h1, List.length_map], by rw [h2, List.length_map], ?_, ?_, ?_⟩
  · intro b e he
    unfold processItemSync
    rw [he]
  · intro b r e he0 he1
    unfold processItemSync
    rw [he0, he1]
  · intro b e he
    unfold processItemAsync
    rw [he]

theorem batch_item_failure_isolation_witness :
    (∀ n, (some 3 : Option Nat) = some n → 1 ≤ n) ∧
    (c6items.map (fun b => (processItemSync b).1.1)).Nodup ∧
    (c6items.map (fun b => (processItemAsync b).1)).Nodup ∧
    syncBatchResults c6items = c6items.map (fun b => (processItemSync b).1.2) ∧
    (asyncBatchResults c6items (some 3)).length = 5 := by
  have hc : ∀ n, (some 3 : Option Nat) = some n → 1 ≤ n := by
    intro n hn
    injection hn with h
    omega
  refine ⟨hc, by decide, by decide, ?_, ?_⟩
  · exact (batch_item_failure_isolation c6items (some 3) hc (by decide) (by decide)).1
  · exact (batch_item_failure_isolation c6items (some 3) hc (by decide) (by decide)).2.2.2.1

/-- C9 counterexample: after j.withJoinFn(f) the original Join executes f,
not the default merge, and after w.withCondition(always-true) the
original When runs its target on a context its previous predicate
rejected: withJoinFn and withCondition reassign the closure variable the
receiver reads. -/
theorem builder_mutation_counterexample :
    JoinObj.run (JoinObj.withJoinFn createJoin (fun _ => [("x", JVal.vNum 42)]))
        [[("a", JVal.vNum 1)]] = [("x", JVal.vNum 42)] ∧
    JoinObj.run createJoin [[("a", JVal.vNum 1)]] =
      [("a", JVal.vNum 1), ("outcome", JVal.vStr "joined")] ∧
    ([("x", JVal.vNum 42)] : JObj) ≠
      [("a", JVal.vNum 1), ("outcome", JVal.vStr "joined")] ∧
    WhenObj.run (WhenObj.withCondition (createWhen "go" c9target) (fun _ => true))
        [("outcome", JVal.vStr "stop")] =
      [("outcome", JVal.vStr "stop"), ("ran", JVal.vBool true)] ∧
    WhenObj.run (createWhen "go" c9target) [("outcome", JVal.vStr "stop")] =
      [("outcome", JVal.vStr "stop")] := by
  refine ⟨rfl, rfl, ?_, rfl, rfl⟩
  intro h
  simp at h

/-- C9 (amended): the Node builders (withPrepare, withExecuteLogic,
withFinalize, withRetry) return a new node with one field replaced and
the receiver fields otherwise intact, but Join.withJoinFn and
When.withCondition also reassign the function captured by the receiver:
afterwards the original object executes the newly supplied function,
while a freshly created Join still performs the default merge and a
freshly created When still uses the default outcome-tag predicate. -/
theorem builder_state_semantics (j : JoinObj) (f : List JObj → JObj)
    (w : WhenObj) (q : JObj → Bool) (nd : NodeV) (pf : JObj → JVal)
    (ef : JVal → JVal) (ff : JObj → JVal → JVal → String) (pol : RetryPolicy)
    (ctxs : List JObj) (ctx : JObj) :
    JoinObj.run (JoinObj.withJoinFn j f) ctxs = f ctxs ∧
    JoinObj.run createJoin ctxs = defaultSyncJoinFn ctxs ∧
    WhenObj.run (WhenObj.withCondition w q) ctx = (if q ctx then w.target ctx else ctx) ∧
    WhenObj.run (createWhen w.tag w.target) ctx =
      (if defaultWhenCond w.tag ctx then w.target ctx else ctx) ∧
    (NodeV.withPrepare nd pf).executeFn = nd.executeFn ∧
    (NodeV.withPrepare nd pf).finalizeFn = nd.finalizeFn ∧
    (NodeV.withPrepare nd pf).retryPolicy = nd.retryPolicy ∧
    (NodeV.withExecuteLogic nd ef).prepareFn = nd.prepareFn ∧
    (NodeV.withExecuteLogic nd ef).finalizeFn = nd.finalizeFn ∧
    (NodeV.withFinalize nd ff).prepareFn = nd.prepareFn ∧
    (NodeV.withFinalize nd ff).executeFn = nd.executeFn ∧
    (NodeV.withRetry nd pol).prepareFn = nd.prepareFn ∧
    (NodeV.withRetry nd pol).executeFn = nd.executeFn :=
  ⟨rfl, rfl, rfl, rfl, rfl, rfl, rfl, rfl, rfl, rfl, rfl, rfl, rfl⟩

/-- C1 evaluated at its failing input: on the empty context with a prepare
result carrying a = 1 (a key subject to no exclusion rule), the returned
context is the original object and the key a is NOT present on it —
mergeContext only rebinds a local variable to setInContext copies and
never writes the object of the caller. -/
theorem node_merge_drops_prepare_keys :
    (nodeExecute c1node 5 [([] : HObj)] (HVal.hRef 0)).map
        (fun p => (p.2, readField p.1 p.2 "a")) = some (HVal.hRef 0, none) ∧
    (none : Option HVal) ≠ some (HVal.hNum 1) := by
  refine ⟨rfl, ?_⟩
  intro h
  exact Option.noConfusion h

/-- C4 evaluated at its failing input: the async execute hands the context
object of the caller itself to prepare — the callers field x becomes
99 — while the synchronous execute runs the same prepare on a deep copy
and the callers field x stays 1. -/
theorem async_prepare_mutates_caller_context :
    (asyncNodeExecute c4node [[("x", HVal.hNum 1)]] (HVal.hRef 0)).2 = HVal.hRef 0 ∧
    readField (asyncNodeExecute c4node [[("x", HVal.hNum 1)]] (HVal.hRef 0)).1
        (HVal.hRef 0) "x" = some (HVal.hNum 99) ∧
    (nodeExecute c4node 5 [[("x", HVal.hNum 1)]] (HVal.hRef 0)).map
        (fun p => readField p.1 (HVal.hRef 0) "x") = some (some (HVal.hNum 1)) ∧
    some (HVal.hNum 99) ≠ some (HVal.hNum 1) := by
  refine ⟨rfl, rfl, rfl, by decide⟩

/-- C3 evaluated at its failing input: the branches receive shallow copies
of ONE deep copy, so they share the nested object behind n; after branch
one writes n.x = 99 in place, the context of branch two reads n.x = 99,
although the original nested value was 1. -/
theorem fork_branches_share_nested_objects :
    c3secondBranchNestedX = some (HVal.hNum 99) ∧
    readField c3heap (HVal.hRef 1) "x" = some (HVal.hNum 1) ∧
    some (HVal.hNum 99) ≠ some (HVal.hNum 1) := by
  refine ⟨rfl, rfl, by decide⟩

theorem forkExecute_length (branches : List (Heap → HVal → Heap × HVal)) (fuel : Nat)
    (h : Heap) (ctx : HVal) :
    (forkExecute branches fuel h ctx).map (fun p => p.2.length) =
      (deepCopyVal fuel h ctx).map
        (fun _ => if branches.isEmpty then 1 else branches.length) := by
  unfold forkExecute
  cases hdc : deepCopyVal fuel h ctx with
  | none => rfl
  | some p =>
    simp only [Option.map_some']
    by_cases hbe : branches.isEmpty = true
    · simp only [hbe, if_pos]
      rfl
    · simp only [hbe]
      rw [if_neg (by simp [hbe]), if_neg (by simp [hbe])]
      exact congrArg some (runBranches_length branches p.1 p.2)

theorem asyncForkExecute_eq_forkExecute (branches : List (Heap → HVal → Heap × HVal))
    (fuel : Nat) (h : Heap) (ctx : HVal) :
    asyncForkExecute branches fuel h ctx = forkExecute branches fuel h ctx := rfl

/-- C8: when the deep copy of the input succeeds, a Fork (sync or async)
with zero branches returns a SINGLE-element array — its element a fresh
object holding the deep-copied fields with outcome set to "forked" — not
an empty array, while with N branches it returns exactly N result
contexts, produced by runBranches in branch-declaration order. -/
theorem fork_zero_branch_and_lengths (branches : List (Heap → HVal → Heap × HVal))
    (fuel : Nat) (h : Heap) (ctx : HVal) (h1 : Heap) (copied : HVal)
    (hcopy : deepCopyVal fuel h ctx = some (h1, copied)) :
    forkExecute [] fuel h ctx =
      some (h1 ++ [objSet (readFieldsH h1 copied) "outcome" (.hStr "forked")],
        [HVal.hRef h1.length]) ∧
    asyncForkExecute [] fuel h ctx =
      some (h1 ++ [objSet (readFieldsH h1 copied) "outcome" (.hStr "forked")],
        [HVal.hRef h1.length]) ∧
    (forkExecute branches fuel h ctx).map (fun p => p.2.length) =
      some (if branches.isEmpty then 1 else branches.length) ∧
    (asyncForkExecute branches fuel h ctx).map (fun p => p.2.length) =
      some (if branches.isEmpty then 1 else branches.length) ∧
    (1 : Nat) ≠ 0 := by
  refine ⟨?_, ?_, ?_, ?_, by decide⟩
  · unfold forkExecute
    rw [hcopy]
    rfl
  · rw [asyncForkExecute_eq_forkExecute]
    unfold forkExecute
    rw [hcopy]
    rfl
  · rw [forkExecute_length, hcopy]
    rfl
  · rw [asyncForkExecute_eq_forkExecute, forkExecute_length, hcopy]
    rfl

theorem fork_zero_branch_and_lengths_witness :
    deepCopyVal 3 [[("a", HVal.hNum 5)]] (HVal.hRef 0) =
      some ([[("a", HVal.hNum 5)], [("a", HVal.hNum 5)]], HVal.hRef 1) ∧
    forkExecute [] 3 [[("a", HVal.hNum 5)]] (HVal.hRef 0) =
      some ([[("a", HVal.hNum 5)], [("a", HVal.hNum 5)],
        [("a", HVal.hNum 5), ("outcome", HVal.hStr "forked")]], [HVal.hRef 2]) ∧
    (forkExecute [fun h c => (h, c), fun h c => (h, c)] 3
        [[("a", HVal.hNum 5)]] (HVal.hRef 0)).map (fun p => p.2.length) = some 2 := by
  have hcopy : deepCopyVal 3 [[("a", HVal.hNum 5)]] (HVal.hRef 0) =
      some ([[("a", HVal.hNum 5)], [("a", HVal.hNum 5)]], HVal.hRef 1) := rfl
  refine ⟨hcopy, ?_, ?_⟩
  · exact (fork_zero_branch_and_lengths [] 3 [[("a", HVal.hNum 5)]] (HVal.hRef 0)
      [[("a", HVal.hNum 5)], [("a", HVal.hNum 5)]] (HVal.hRef 1) hcopy).1
  · exact (fork_zero_branch_and_lengths [fun h c => (h, c), fun h c => (h, c)] 3
      [[("a", HVal.hNum 5)]] (HVal.hRef 0)
      [[("a", HVal.hNum 5)], [("a", HVal.hNum 5)]] (HVal.hRef 1) hcopy).2.2.1
